import Mathlib

/-!
Shallow embedding of `etl::ibitset` (src/ibitset.h) and proofs about it.

The storage element type is `uint8_t`, modelled as `Nat` values `< 256`
with explicit `% 256` wherever the C++ code truncates on assignment.
`size_t` is modelled as `Nat`; the only place its wrap-around could be
observed in-contract is `npos`, which is `2^64 - 1` on the assumed 64-bit
platform.  Constants from headers outside `src/` that the file uses:
`etl::integral_limits<uint8_t>::max = 255`, `::bits = 8`,
`etl::log2<8>::value = 3` (so `position >> log2<8>` is `position >>> 3`).
-/

namespace Etl

def BITS_PER_ELEMENT : Nat := 8

def ALL_SET : Nat := 255

def ALL_CLEAR : Nat := 0

def npos : Nat := 2 ^ 64 - 1

/-- State of an `etl::ibitset`: the logical bit count `NBITS`, the element
count `SIZE`, and the borrowed storage array `pdata` (one `Nat < 256` per
`uint8_t` element). -/
structure Ibitset where
  NBITS : Nat
  SIZE : Nat
  pdata : List Nat
deriving DecidableEq

/-- Write through one storage slot: `pdata[i] = f(pdata[i])`.
`List.set` is a no-op out of bounds; in-contract source code never
writes outside the storage array. -/
def updateElem (l : List Nat) (i : Nat) (f : Nat → Nat) : List Nat :=
  l.set i (f (l.getD i 0))

/-- Element index of a bit position, as computed identically in `test`,
`set`, `reset` and `flip`: `0` when `SIZE == 1`, otherwise
`position >> etl::log2<BITS_PER_ELEMENT>::value`, i.e. `position >>> 3`. -/
def bitIndex (s : Ibitset) (position : Nat) : Nat :=
  if s.SIZE = 1 then 0 else position >>> 3

/-- Single-bit mask of a position, as computed identically in `test`,
`set`, `reset` and `flip`.  In the `SIZE == 1` branch the source computes
`element_t(1) << position`, whose assignment to `element_t` truncates
mod 256; in the other branch the shift amount is `position & 7`. -/
def bitMask (s : Ibitset) (position : Nat) : Nat :=
  if s.SIZE = 1 then (1 <<< position) % 256 else 1 <<< (position &&& 7)

/-- `ibitset::test(position)`: `(pdata[index] & mask) != 0`. -/
def test (s : Ibitset) (position : Nat) : Bool :=
  decide ((s.pdata.getD (bitIndex s position) 0 &&& bitMask s position) ≠ 0)

/-- The `top_mask_shift` local of the constructor
(`ibitset::ibitset(nbits, size, pdata)`), with `allocated_bits`
(`SIZE * BITS_PER_ELEMENT`) inlined. -/
def top_mask_shift (s : Ibitset) : Nat :=
  (BITS_PER_ELEMENT - (s.SIZE * BITS_PER_ELEMENT - s.NBITS)) % BITS_PER_ELEMENT

/-- The `TOP_MASK` member computed by the constructor, as a function of
the `NBITS` and `SIZE` fields it is computed from.
`~(ALL_SET << top_mask_shift)` is an `int` complement truncated to
`element_t`, modelled as `xor 255` of the truncated shift. -/
def TOP_MASK (s : Ibitset) : Nat :=
  if top_mask_shift s = 0 then ALL_SET else ((ALL_SET <<< top_mask_shift s) % 256) ^^^ 255

/-- `ibitset::set(position, value)`: `pdata[index] |= bit` or
`pdata[index] &= ~bit` (uint8 complement of `bit` is `bit ^^^ 255`). -/
def set (s : Ibitset) (position : Nat) (value : Bool) : Ibitset :=
  { s with pdata :=
      (updateElem s.pdata (bitIndex s position)
        (fun e => if value then e ||| bitMask s position
                  else e &&& (bitMask s position ^^^ 255))) }

/-- `ibitset::reset(position)`: `pdata[index] &= ~bit`. -/
def reset (s : Ibitset) (position : Nat) : Ibitset :=
  { s with pdata :=
      updateElem s.pdata (bitIndex s position) (fun e => e &&& (bitMask s position ^^^ 255)) }

/-- `ibitset::flip(position)`: guarded by `position < NBITS`, then
`pdata[index] ^= bit`; otherwise a silent no-op. -/
def flip (s : Ibitset) (position : Nat) : Ibitset :=
  if position < s.NBITS then
    { s with pdata := updateElem s.pdata (bitIndex s position) (fun e => e ^^^ bitMask s position) }
  else s

/-- `ibitset::set()` (no arguments): every element becomes `ALL_SET`, then
the last element is masked with `TOP_MASK`. -/
def setAllBits (s : Ibitset) : Ibitset :=
  { s with pdata :=
      updateElem (s.pdata.map (fun _ => ALL_SET)) (s.SIZE - 1) (fun e => e &&& TOP_MASK s) }

/-- `ibitset::reset()` (no arguments): every element becomes `ALL_CLEAR`. -/
def resetAllBits (s : Ibitset) : Ibitset :=
  { s with pdata := s.pdata.map (fun _ => ALL_CLEAR) }

/-- `ibitset::flip()` (no arguments): every element is complemented
(`~pdata[i]`, uint8 complement is `xor 255`), then the last element is
masked with `TOP_MASK`. -/
def flipAllBits (s : Ibitset) : Ibitset :=
  { s with pdata :=
      updateElem (s.pdata.map (fun e => e ^^^ 255)) (s.SIZE - 1) (fun e => e &&& TOP_MASK s) }

/-- The `while (i > 0) set(--i, *text++ == '1');` loop of
`ibitset::set(const char*)`: `i` counts down, the text pointer advances
from the start of the string. -/
def setTextLoop : Ibitset → Nat → List Char → Ibitset
  | s, 0, _ => s
  | s, i+1, text => setTextLoop (set s i (text.headD 'x' == '1')) i text.tail

/-- `ibitset::set(const char* text)`: `reset()` then the countdown loop
starting from `min(NBITS, strlen(text))`. -/
def setText (s : Ibitset) (text : List Char) : Ibitset :=
  setTextLoop (resetAllBits s) (min s.NBITS text.length) text

/-- Modelled from the spec: `etl::count_bits` lives in `etl/binary.h`,
which is not under `src/`; the spec (section 4.2) specifies it as the
population count of one storage element.  Written with an explicit fuel
argument (first argument) so it evaluates by kernel reduction; the value
halves each step, so fuel `n` suffices for input `n`. -/
def countBitsFuel : Nat → Nat → Nat
  | 0, _ => 0
  | fuel+1, n => if n = 0 then 0 else n % 2 + countBitsFuel fuel (n / 2)

/-- Population count of one element (`etl::count_bits`). -/
def count_bits (n : Nat) : Nat := countBitsFuel n n

/-- `ibitset::count()`: `n += etl::count_bits(pdata[i])` over all elements. -/
def count (s : Ibitset) : Nat :=
  (List.range s.SIZE).foldl (fun n i => n + count_bits (s.pdata.getD i 0)) 0

/-- `ibitset::all()`: all elements but the last equal `ALL_SET`, and the
last equals `ALL_SET & TOP_MASK`. -/
def allBits (s : Ibitset) : Bool :=
  ((List.range (s.SIZE - 1)).all (fun i => s.pdata.getD i 0 == ALL_SET)) &&
    (s.pdata.getD (s.SIZE - 1) 0 == (ALL_SET &&& TOP_MASK s))

/-- `ibitset::none()`: every element is zero. -/
def noneBits (s : Ibitset) : Bool :=
  (List.range s.SIZE).all (fun i => s.pdata.getD i 0 == 0)

/-- `ibitset::any()`: `!none()`. -/
def anyBits (s : Ibitset) : Bool := !noneBits s

/-- Inner loop of `find_next`: scan the bits of one element value while
`bit < BITS_PER_ELEMENT && position < NBITS`; return `inl position` on a
match, `inr position` with the updated cursor otherwise.  (`bit` and
`mask` are reassigned after the loop in the source, so only `position`
escapes.)  First argument is fuel; 8 is enough since `bit` grows each
step. -/
def scanBits (value : Nat) (state : Bool) (nbits : Nat) : Nat → Nat → Nat → Nat → Sum Nat Nat
  | 0, _, _, position => Sum.inr position
  | fuel+1, bit, mask, position =>
    if bit < BITS_PER_ELEMENT ∧ position < nbits then
      if (decide ((value &&& mask) ≠ 0)) = state then Sum.inl position
      else scanBits value state nbits fuel (bit+1) ((mask <<< 1) % 256) (position+1)
    else Sum.inr position

/-- Outer `while (index < SIZE)` loop of `find_next`.  First argument is
fuel; `SIZE + 1` is enough since `index` grows each iteration and the
guard `index < SIZE` is part of the body. -/
def findLoop (s : Ibitset) (state : Bool) : Nat → Nat → Nat → Nat → Nat → Nat
  | 0, _, _, _, _ => npos
  | fuel+1, index, bit, mask, position =>
    if index < s.SIZE then
      let value := s.pdata.getD index 0
      if (if state then value ≠ ALL_CLEAR else value ≠ ALL_SET) then
        match scanBits value state s.NBITS BITS_PER_ELEMENT bit mask position with
        | Sum.inl p => p
        | Sum.inr p => findLoop s state fuel (index+1) 0 1 p
      else findLoop s state fuel (index+1) 0 1 (position + BITS_PER_ELEMENT)
    else npos

/-- `ibitset::find_next(state, position)`: initial `index`/`bit` are
`(0, position)` when `SIZE == 1`, else `(position >>> 3, position & 7)`;
`element_t mask = 1 << bit` truncates mod 256. -/
def find_next (s : Ibitset) (state : Bool) (position : Nat) : Nat :=
  let index := if s.SIZE = 1 then 0 else position >>> 3
  let bit := if s.SIZE = 1 then position else position &&& 7
  let mask := (1 <<< bit) % 256
  findLoop s state (s.SIZE + 1) index bit mask position

/-- `ibitset::find_first(state)` is `find_next(state, 0)`. -/
def find_first (s : Ibitset) (state : Bool) : Nat := find_next s state 0

/-- First loop of the multi-element path of `operator<<=`:
`set(destination--, test(source--))`, `NBITS - shift` times; returns the
updated bitset together with the final `destination` cursor.  (`size_t`
decrements that would wrap in C++ happen only after the last use of the
cursor, so `Nat` truncated subtraction is observationally equal.) -/
def shlCopyLoop : Ibitset → Nat → Nat → Nat → Ibitset × Nat
  | s, 0, destination, _ => (s, destination)
  | s, n+1, destination, source =>
    shlCopyLoop (set s destination (test s source)) n (destination - 1) (source - 1)

/-- Second loop of the multi-element path of `operator<<=`:
`reset(destination--)`, `shift` times. -/
def shlResetLoop : Ibitset → Nat → Nat → Ibitset
  | s, 0, _ => s
  | s, n+1, destination => shlResetLoop (reset s destination) n (destination - 1)

/-- `ibitset::operator<<=(shift)`.  Single-element path: native shift of
the element with uint8 truncation.  Multi-element path: bit-by-bit copy
then clearing of the vacated low positions.  The loop bound
`NBITS - shift` is `size_t` arithmetic; for `shift > NBITS` the source
underflows and reads out of the storage array (undefined behaviour), so
the model's truncated subtraction is only meaningful for
`shift ≤ NBITS` in the multi-element path. -/
def shlAssign (s : Ibitset) (shift : Nat) : Ibitset :=
  if s.SIZE = 1 then
    { s with pdata := updateElem s.pdata 0 (fun e => (e <<< shift) % 256) }
  else
    let r := shlCopyLoop s (s.NBITS - shift) (s.NBITS - 1) (s.NBITS - shift - 1)
    shlResetLoop r.1 shift r.2

/-- First loop of the multi-element path of `operator>>=`:
`set(destination++, test(source++))`, `NBITS - shift` times; returns the
updated bitset together with the final `destination` cursor. -/
def shrCopyLoop : Ibitset → Nat → Nat → Nat → Ibitset × Nat
  | s, 0, destination, _ => (s, destination)
  | s, n+1, destination, source =>
    shrCopyLoop (set s destination (test s source)) n (destination + 1) (source + 1)

/-- Second loop of the multi-element path of `operator>>=`:
`reset(destination++)`, `shift` times. -/
def shrResetLoop : Ibitset → Nat → Nat → Ibitset
  | s, 0, _ => s
  | s, n+1, destination => shrResetLoop (reset s destination) n (destination + 1)

/-- `ibitset::operator>>=(shift)`; same structure as `operator<<=` with
the copy running upward from `source = shift`. -/
def shrAssign (s : Ibitset) (shift : Nat) : Ibitset :=
  if s.SIZE = 1 then
    { s with pdata := updateElem s.pdata 0 (fun e => e >>> shift) }
  else
    let r := shrCopyLoop s (s.NBITS - shift) 0 shift
    shrResetLoop r.1 shift r.2

/-- The `while ((value != 0) && (i < SIZE))` loop of `ibitset::initialise`:
`pdata[i++] = value & ALL_SET; value = value >> SHIFT;` with `SHIFT = 8`.
First argument after the bitset is fuel; `SIZE` is enough since `i` grows
each iteration. -/
def initialiseLoop : Ibitset → Nat → Nat → Nat → Ibitset
  | s, 0, _, _ => s
  | s, fuel+1, value, i =>
    if value ≠ 0 ∧ i < s.SIZE then
      initialiseLoop { s with pdata := s.pdata.set i (value &&& ALL_SET) } fuel
        (value >>> BITS_PER_ELEMENT) (i+1)
    else s

/-- `ibitset::initialise(value)`: `reset()`, then either the one-hit write
(when `unsigned long long` is no wider than an element, which is false on
the assumed platform: 64 > 8) or the per-element loop, then
`pdata[SIZE - 1] &= TOP_MASK`. -/
def initialise (s : Ibitset) (value : Nat) : Ibitset :=
  let s0 := resetAllBits s
  let SHIFT : Nat := if 64 ≤ BITS_PER_ELEMENT then 0 else BITS_PER_ELEMENT
  let s1 := if SHIFT = 0 then { s0 with pdata := updateElem s0.pdata 0 (fun _ => value % 256) }
            else initialiseLoop s0 s0.SIZE value 0
  { s1 with pdata := updateElem s1.pdata (s1.SIZE - 1) (fun e => e &&& TOP_MASK s) }

/-- Well-formedness, per the construction contract (spec section 6): the
derived container passes a storage array of exactly
`ceil(bit_count / bits_per_element)` elements, `bit_count` is positive,
and every `uint8_t` element holds a value below 256. -/
def WF (s : Ibitset) : Prop :=
  0 < s.NBITS ∧ s.pdata.length = s.SIZE ∧
    s.SIZE = (s.NBITS + BITS_PER_ELEMENT - 1) / BITS_PER_ELEMENT ∧
    ∀ e ∈ s.pdata, e < 256

/-- The documented storage invariant: all bits of the last element at
positions at or beyond `bit_count` are zero, i.e. masking the last
element with `TOP_MASK` does not change it. -/
def Invariant (s : Ibitset) : Prop :=
  s.pdata.getD (s.SIZE - 1) 0 &&& TOP_MASK s = s.pdata.getD (s.SIZE - 1) 0

instance (s : Ibitset) : Decidable (WF s) := by
  unfold WF
  exact inferInstance

instance (s : Ibitset) : Decidable (Invariant s) := by
  unfold Invariant
  exact inferInstance

/-- Two-element 16-bit bitset with only absolute position 8 set. -/
def exA : Ibitset := { NBITS := 16, SIZE := 2, pdata := [0, 1] }

/-- Single-element 4-bit bitset with only position 3 set. -/
def exB : Ibitset := { NBITS := 4, SIZE := 1, pdata := [8] }

/-- Single-element 2-bit bitset, all clear. -/
def exC : Ibitset := { NBITS := 2, SIZE := 1, pdata := [0] }

theorem getD_set_self (l : List Nat) (i a : Nat) (h : i < l.length) :
    (l.set i a).getD i 0 = a := by
  simp [List.getD_eq_getElem?_getD, List.getElem?_set_self h]

theorem getD_set_ne (l : List Nat) (i j a : Nat) (h : i ≠ j) :
    (l.set i a).getD j 0 = l.getD j 0 := by
  simp [List.getD_eq_getElem?_getD, List.getElem?_set_ne h]

theorem getD_map_of_lt (l : List Nat) (f : Nat → Nat) (i : Nat) (h : i < l.length) :
    (l.map f).getD i 0 = f (l.getD i 0) := by
  simp [List.getD_eq_getElem?_getD, List.getElem?_eq_getElem h]

theorem set_getD_self (l : List Nat) (i : Nat) (h : i < l.length) :
    l.set i (l.getD i 0) = l := by
  apply List.ext_getElem?
  intro n
  by_cases hn : n = i
  · subst hn
    simp [List.getElem?_set_self h, List.getD_eq_getElem?_getD, List.getElem?_eq_getElem h]
  · rw [List.getElem?_set_ne (fun hc => hn hc.symm)]

theorem getD_mem (l : List Nat) (i : Nat) (h : i < l.length) : l.getD i 0 ∈ l := by
  rw [List.getD_eq_getElem?_getD, List.getElem?_eq_getElem h]
  exact List.getElem_mem h

theorem list_ext_getD (l₁ l₂ : List Nat) (hlen : l₁.length = l₂.length)
    (h : ∀ i, i < l₁.length → l₁.getD i 0 = l₂.getD i 0) : l₁ = l₂ := by
  apply List.ext_getElem hlen
  intro n h1 h2
  have h3 := h n h1
  rwa [List.getD_eq_getElem?_getD, List.getD_eq_getElem?_getD, List.getElem?_eq_getElem h1,
    List.getElem?_eq_getElem h2] at h3

theorem WF.size_pos {s : Ibitset} (h : WF s) : 0 < s.SIZE := by
  obtain ⟨h1, _, h3, _⟩ := h
  unfold BITS_PER_ELEMENT at h3
  omega

theorem WF.nbits_le {s : Ibitset} (h : WF s) : s.NBITS ≤ 8 * s.SIZE := by
  obtain ⟨h1, _, h3, _⟩ := h
  unfold BITS_PER_ELEMENT at h3
  omega

theorem WF.nbits_gt {s : Ibitset} (h : WF s) : 8 * (s.SIZE - 1) < s.NBITS := by
  obtain ⟨h1, _, h3, _⟩ := h
  unfold BITS_PER_ELEMENT at h3
  omega

theorem WF.single {s : Ibitset} (h : WF s) (h1 : s.SIZE = 1) : s.NBITS ≤ 8 := by
  have := h.nbits_le
  omega

theorem WF.elem_lt {s : Ibitset} (h : WF s) (i : Nat) (hi : i < s.SIZE) :
    s.pdata.getD i 0 < 256 := by
  exact h.2.2.2 _ (getD_mem _ _ (by rw [h.2.1]; exact hi))

theorem bitIndex_eq {s : Ibitset} (hwf : WF s) {position : Nat} (h : position < s.NBITS) :
    bitIndex s position = position / 8 := by
  unfold bitIndex
  by_cases h1 : s.SIZE = 1
  · have := hwf.single h1
    rw [if_pos h1]
    omega
  · rw [if_neg h1, Nat.shiftRight_eq_div_pow]

theorem bitMask_eq {s : Ibitset} (hwf : WF s) {position : Nat} (h : position < s.NBITS) :
    bitMask s position = 2 ^ (position % 8) := by
  unfold bitMask
  by_cases h1 : s.SIZE = 1
  · have h8 := hwf.single h1
    have hp8 : position < 8 := by omega
    have hlt : (2 : Nat) ^ position < 256 := by
      calc (2 : Nat) ^ position ≤ 2 ^ 7 := Nat.pow_le_pow_right (by omega) (by omega)
        _ < 256 := by omega
    rw [if_pos h1, Nat.shiftLeft_eq, one_mul, Nat.mod_eq_of_lt hlt, Nat.mod_eq_of_lt hp8]
  · rw [if_neg h1, Nat.shiftLeft_eq, one_mul,
      show (7 : Nat) = 2 ^ 3 - 1 from rfl, Nat.and_pow_two_sub_one_eq_mod]

theorem bitMask_lt (s : Ibitset) (position : Nat) : bitMask s position < 256 := by
  unfold bitMask
  by_cases h1 : s.SIZE = 1
  · rw [if_pos h1]
    exact Nat.mod_lt _ (by omega)
  · rw [if_neg h1, Nat.shiftLeft_eq, one_mul]
    have : position &&& 7 ≤ 7 := Nat.and_le_right
    calc 2 ^ (position &&& 7) ≤ 2 ^ 7 := Nat.pow_le_pow_right (by omega) this
    _ < 256 := by omega

theorem test_char {s : Ibitset} (hwf : WF s) {position : Nat} (h : position < s.NBITS) :
    test s position = (s.pdata.getD (position / 8) 0).testBit (position % 8) := by
  unfold test
  rw [bitIndex_eq hwf h, bitMask_eq hwf h, Nat.and_two_pow]
  cases hb : (s.pdata.getD (position / 8) 0).testBit (position % 8) <;>
    simp [hb, Nat.pos_iff_ne_zero.mp (Nat.two_pow_pos _)]

@[simp] theorem set_NBITS (s : Ibitset) (p : Nat) (b : Bool) : (set s p b).NBITS = s.NBITS := rfl

@[simp] theorem set_SIZE (s : Ibitset) (p : Nat) (b : Bool) : (set s p b).SIZE = s.SIZE := rfl

@[simp] theorem reset_NBITS (s : Ibitset) (p : Nat) : (reset s p).NBITS = s.NBITS := rfl

@[simp] theorem reset_SIZE (s : Ibitset) (p : Nat) : (reset s p).SIZE = s.SIZE := rfl

@[simp] theorem flip_NBITS (s : Ibitset) (p : Nat) : (flip s p).NBITS = s.NBITS := by
  unfold flip
  split <;> rfl

@[simp] theorem flip_SIZE (s : Ibitset) (p : Nat) : (flip s p).SIZE = s.SIZE := by
  unfold flip
  split <;> rfl

theorem TOP_MASK_set (s : Ibitset) (p : Nat) (b : Bool) : TOP_MASK (set s p b) = TOP_MASK s := rfl

theorem set_pdata_length (s : Ibitset) (p : Nat) (b : Bool) :
    (set s p b).pdata.length = s.pdata.length := by
  simp [set, updateElem]

theorem reset_eq_set_false (s : Ibitset) (p : Nat) : reset s p = set s p false := rfl

theorem getD_lt_256 {s : Ibitset} (hwf : WF s) (i : Nat) : s.pdata.getD i 0 < 256 := by
  by_cases hi : i < s.pdata.length
  · exact hwf.2.2.2 _ (getD_mem _ _ hi)
  · rw [List.getD_eq_getElem?_getD, List.getElem?_eq_none (by omega)]
    decide

theorem WF_set {s : Ibitset} (hwf : WF s) (p : Nat) (b : Bool) : WF (set s p b) := by
  obtain ⟨h1, h2, h3, h4⟩ := hwf
  refine ⟨h1, ?_, h3, ?_⟩
  · rw [set_pdata_length]
    exact h2
  · intro e he
    simp only [set, updateElem] at he
    rcases List.mem_or_eq_of_mem_set he with hmem | heq
    · exact h4 _ hmem
    · subst heq
      have hg : s.pdata.getD (bitIndex s p) 0 < 256 := getD_lt_256 ⟨h1, h2, h3, h4⟩ _
      have hm : bitMask s p < 256 := bitMask_lt s p
      cases b
      · exact lt_of_le_of_lt Nat.and_le_left hg
      · have h256 : (256 : Nat) = 2 ^ 8 := rfl
        rw [h256] at hg hm ⊢
        exact Nat.or_lt_two_pow hg hm

theorem WF_reset {s : Ibitset} (hwf : WF s) (p : Nat) : WF (reset s p) := by
  rw [reset_eq_set_false]
  exact WF_set hwf p false

theorem set_pdata_getD_at {s : Ibitset} (hwf : WF s) {p : Nat} (hp : p < s.NBITS) (b : Bool) :
    (set s p b).pdata.getD (p / 8) 0 =
      (if b then s.pdata.getD (p / 8) 0 ||| 2 ^ (p % 8)
       else s.pdata.getD (p / 8) 0 &&& (2 ^ (p % 8) ^^^ 255)) := by
  have hidx : p / 8 < s.pdata.length := by
    rw [hwf.2.1]
    have := hwf.nbits_le
    omega
  unfold set updateElem
  rw [bitIndex_eq hwf hp, bitMask_eq hwf hp, getD_set_self _ _ _ hidx]

theorem set_pdata_getD_off {s : Ibitset} (hwf : WF s) {p : Nat} (hp : p < s.NBITS) (b : Bool)
    (i : Nat) (hi : i ≠ p / 8) : (set s p b).pdata.getD i 0 = s.pdata.getD i 0 := by
  unfold set updateElem
  rw [bitIndex_eq hwf hp, getD_set_ne _ _ _ _ (fun h => hi h.symm)]

theorem test_set_self {s : Ibitset} (hwf : WF s) {p : Nat} (hp : p < s.NBITS) (b : Bool) :
    test (set s p b) p = b := by
  have hj : p % 8 < 8 := Nat.mod_lt _ (by omega)
  have h255 : Nat.testBit 255 (p % 8) = true := by
    rw [show (255 : Nat) = 2 ^ 8 - 1 from rfl, Nat.testBit_two_pow_sub_one]
    simp [hj]
  rw [test_char (WF_set hwf p b) hp, set_pdata_getD_at hwf hp b]
  cases b
  · simp [Nat.testBit_and, Nat.testBit_xor, Nat.testBit_two_pow_self, h255]
  · simp [Nat.testBit_or, Nat.testBit_two_pow_self]

theorem test_set_other {s : Ibitset} (hwf : WF s) {p q : Nat} (hp : p < s.NBITS)
    (hq : q < s.NBITS) (hne : q ≠ p) (b : Bool) : test (set s p b) q = test s q := by
  rw [test_char (WF_set hwf p b) hq, test_char hwf hq]
  by_cases hi : q / 8 = p / 8
  · have hjne : q % 8 ≠ p % 8 := by omega
    have hq8 : q % 8 < 8 := Nat.mod_lt _ (by omega)
    have h255 : Nat.testBit 255 (q % 8) = true := by
      rw [show (255 : Nat) = 2 ^ 8 - 1 from rfl, Nat.testBit_two_pow_sub_one]
      simp [hq8]
    rw [hi, set_pdata_getD_at hwf hp b]
    cases b
    · simp [Nat.testBit_and, Nat.testBit_xor,
        Nat.testBit_two_pow_of_ne (fun h => hjne h.symm), h255]
    · simp [Nat.testBit_or, Nat.testBit_two_pow_of_ne (fun h => hjne h.symm)]
  · rw [set_pdata_getD_off hwf hp b _ hi]

theorem TOP_MASK_eq {s : Ibitset} (hwf : WF s) :
    TOP_MASK s = 2 ^ (s.NBITS - 8 * (s.SIZE - 1)) - 1 := by
  have h1 := hwf.1
  have h3 := hwf.2.2.1
  unfold BITS_PER_ELEMENT at h3
  have hr : s.NBITS % 8 < 8 := Nat.mod_lt _ (by omega)
  rcases Nat.eq_zero_or_pos (s.NBITS % 8) with h0 | h0
  · have hts : top_mask_shift s = 0 := by
      unfold top_mask_shift BITS_PER_ELEMENT
      omega
    have hv : s.NBITS - 8 * (s.SIZE - 1) = 8 := by omega
    unfold TOP_MASK ALL_SET
    rw [hts, hv, if_pos rfl]
    decide
  · have hts : top_mask_shift s = s.NBITS % 8 := by
      unfold top_mask_shift BITS_PER_ELEMENT
      omega
    have hv : s.NBITS - 8 * (s.SIZE - 1) = s.NBITS % 8 := by omega
    unfold TOP_MASK ALL_SET
    rw [hts, hv, if_neg (by omega)]
    set r := s.NBITS % 8 with hrdef
    interval_cases r <;> decide

theorem Invariant_iff_lt {s : Ibitset} (hwf : WF s) :
    Invariant s ↔ s.pdata.getD (s.SIZE - 1) 0 < 2 ^ (s.NBITS - 8 * (s.SIZE - 1)) := by
  unfold Invariant
  rw [TOP_MASK_eq hwf, Nat.and_pow_two_sub_one_eq_mod]
  constructor
  · intro h
    rw [← h]
    exact Nat.mod_lt _ (Nat.two_pow_pos _)
  · exact Nat.mod_eq_of_lt

theorem Invariant_set {s : Ibitset} (hwf : WF s) (hinv : Invariant s) {p : Nat}
    (hp : p < s.NBITS) (b : Bool) : Invariant (set s p b) := by
  have hwf' := WF_set hwf p b
  rw [Invariant_iff_lt hwf']
  rw [Invariant_iff_lt hwf] at hinv
  simp only [set_SIZE, set_NBITS]
  by_cases hi : s.SIZE - 1 = p / 8
  · rw [hi] at hinv ⊢
    rw [set_pdata_getD_at hwf hp b]
    have hjv : p % 8 < s.NBITS - 8 * (p / 8) := by
      have := hwf.nbits_gt
      omega
    cases b
    · exact lt_of_le_of_lt Nat.and_le_left hinv
    · exact Nat.or_lt_two_pow hinv (Nat.pow_lt_pow_right one_lt_two hjv)
  · rw [set_pdata_getD_off hwf hp b _ hi]
    exact hinv

theorem Invariant_reset {s : Ibitset} (hwf : WF s) (hinv : Invariant s) {p : Nat}
    (hp : p < s.NBITS) : Invariant (reset s p) := by
  rw [reset_eq_set_false]
  exact Invariant_set hwf hinv hp false

theorem allBits_setAllBits {s : Ibitset} (hwf : WF s) : allBits (setAllBits s) = true := by
  have hplen : s.pdata.length = s.SIZE := hwf.2.1
  have hS : 0 < s.SIZE := hwf.size_pos
  have hlen : (s.pdata.map (fun _ => ALL_SET)).length = s.SIZE := by
    rw [List.length_map, hwf.2.1]
  have hL : s.SIZE - 1 < s.SIZE := by omega
  show (((List.range (s.SIZE - 1)).all (fun i => (setAllBits s).pdata.getD i 0 == ALL_SET)) &&
    ((setAllBits s).pdata.getD (s.SIZE - 1) 0 == (ALL_SET &&& TOP_MASK s))) = true
  rw [Bool.and_eq_true]
  constructor
  · rw [List.all_eq_true]
    intro i hi
    rw [List.mem_range] at hi
    show ((setAllBits s).pdata.getD i 0 == ALL_SET) = true
    unfold setAllBits updateElem
    rw [getD_set_ne _ _ _ _ (by omega), getD_map_of_lt _ _ _ (by omega)]
    decide
  · unfold setAllBits updateElem
    rw [getD_set_self _ _ _ (by omega), getD_map_of_lt _ _ _ (by omega)]
    exact beq_self_eq_true _

/-- C5: under the construction contract, when `bit_count` is an exact
multiple of `bits_per_element` the constructor computes `TOP_MASK` as
all-ones (not zero) and consequently `set()` followed by `all()` yields
true; when it is not an exact multiple, `TOP_MASK` is the low-order mask
covering exactly `bit_count mod bits_per_element` bits. -/
theorem top_mask_boundary (s : Ibitset) (hwf : WF s) :
    ((8 ∣ s.NBITS) → TOP_MASK s = ALL_SET ∧ allBits (setAllBits s) = true) ∧
      (¬ (8 ∣ s.NBITS) → TOP_MASK s = 2 ^ (s.NBITS % 8) - 1) := by
  have h1 := hwf.1
  have h3 := hwf.2.2.1
  unfold BITS_PER_ELEMENT at h3
  constructor
  · intro hdvd
    obtain ⟨k, hk⟩ := hdvd
    refine ⟨?_, allBits_setAllBits hwf⟩
    rw [TOP_MASK_eq hwf, show s.NBITS - 8 * (s.SIZE - 1) = 8 by omega]
    decide
  · intro hnd
    have hm : s.NBITS % 8 ≠ 0 := fun h => hnd (Nat.dvd_of_mod_eq_zero h)
    rw [TOP_MASK_eq hwf, show s.NBITS - 8 * (s.SIZE - 1) = s.NBITS % 8 by omega]

/-- Witness for `top_mask_boundary` on the 16-bit two-element bitset
`exA`, whose bit count is an exact multiple of 8. -/
theorem top_mask_boundary_witness :
    WF exA ∧ (TOP_MASK exA = ALL_SET ∧ allBits (setAllBits exA) = true) :=
  ⟨by decide, (top_mask_boundary exA (by decide)).1 ⟨2, rfl⟩⟩

theorem initialiseLoop_SIZE : ∀ (fuel : Nat) (s : Ibitset) (value i : Nat),
    (initialiseLoop s fuel value i).SIZE = s.SIZE := by
  intro fuel
  induction fuel with
  | zero => intro s value i; rfl
  | succ n ih =>
    intro s value i
    unfold initialiseLoop
    split
    · rw [ih]
    · rfl

theorem initialiseLoop_NBITS : ∀ (fuel : Nat) (s : Ibitset) (value i : Nat),
    (initialiseLoop s fuel value i).NBITS = s.NBITS := by
  intro fuel
  induction fuel with
  | zero => intro s value i; rfl
  | succ n ih =>
    intro s value i
    unfold initialiseLoop
    split
    · rw [ih]
    · rfl

theorem initialiseLoop_length : ∀ (fuel : Nat) (s : Ibitset) (value i : Nat),
    (initialiseLoop s fuel value i).pdata.length = s.pdata.length := by
  intro fuel
  induction fuel with
  | zero => intro s value i; rfl
  | succ n ih =>
    intro s value i
    unfold initialiseLoop
    split
    · rw [ih, List.length_set]
    · rfl

theorem initialise_SIZE (s : Ibitset) (value : Nat) : (initialise s value).SIZE = s.SIZE := by
  show (initialiseLoop (resetAllBits s) (resetAllBits s).SIZE value 0).SIZE = s.SIZE
  rw [initialiseLoop_SIZE]
  rfl

theorem initialise_NBITS (s : Ibitset) (value : Nat) : (initialise s value).NBITS = s.NBITS := by
  show (initialiseLoop (resetAllBits s) (resetAllBits s).SIZE value 0).NBITS = s.NBITS
  rw [initialiseLoop_NBITS]
  rfl

theorem TOP_MASK_initialise (s : Ibitset) (value : Nat) :
    TOP_MASK (initialise s value) = TOP_MASK s := by
  unfold TOP_MASK top_mask_shift
  rw [initialise_SIZE, initialise_NBITS]

/-- C10: `initialise(value)` masks the last element with `TOP_MASK` as its
final step, so it establishes the storage invariant (all bits at
positions at or beyond `bit_count` in the last element are zero) for
every value, although it is not listed among the invariant-maintaining
operations. -/
theorem initialise_establishes_invariant (s : Ibitset) (hwf : WF s) (value : Nat) :
    Invariant (initialise s value) ∧
      ∀ j, s.NBITS ≤ 8 * (s.SIZE - 1) + j →
        Nat.testBit ((initialise s value).pdata.getD (s.SIZE - 1) 0) j = false := by
  have hlen : (initialiseLoop (resetAllBits s) (resetAllBits s).SIZE value 0).pdata.length
      = s.SIZE := by
    rw [initialiseLoop_length]
    show (s.pdata.map (fun _ => ALL_CLEAR)).length = s.SIZE
    rw [List.length_map, hwf.2.1]
  have hsz : (initialiseLoop (resetAllBits s) (resetAllBits s).SIZE value 0).SIZE = s.SIZE := by
    rw [initialiseLoop_SIZE]
    rfl
  have hpd : (initialise s value).pdata.getD (s.SIZE - 1) 0 =
      (initialiseLoop (resetAllBits s) (resetAllBits s).SIZE value 0).pdata.getD
        (s.SIZE - 1) 0 &&& TOP_MASK s := by
    show (updateElem (initialiseLoop (resetAllBits s) (resetAllBits s).SIZE value 0).pdata
      ((initialiseLoop (resetAllBits s) (resetAllBits s).SIZE value 0).SIZE - 1)
      (fun e => e &&& TOP_MASK s)).getD (s.SIZE - 1) 0 = _
    rw [hsz]
    unfold updateElem
    rw [getD_set_self _ _ _ (by rw [hlen]; have := hwf.size_pos; omega)]
  constructor
  · unfold Invariant
    rw [initialise_SIZE, TOP_MASK_initialise, hpd, Nat.and_assoc, Nat.and_self]
  · intro j hj
    rw [hpd, TOP_MASK_eq hwf, Nat.and_pow_two_sub_one_eq_mod]
    apply Nat.testBit_lt_two_pow
    calc _ % 2 ^ (s.NBITS - 8 * (s.SIZE - 1)) < 2 ^ (s.NBITS - 8 * (s.SIZE - 1)) :=
        Nat.mod_lt _ (Nat.two_pow_pos _)
      _ ≤ 2 ^ j := Nat.pow_le_pow_right (by omega) (by omega)

/-- Witness for `initialise_establishes_invariant` on the 4-bit bitset
`exB` with value 171, checking the invariant and that storage bit 5 of
the last element is clear. -/
theorem initialise_establishes_invariant_witness :
    WF exB ∧ Invariant (initialise exB 171) ∧ exB.NBITS ≤ 8 * (exB.SIZE - 1) + 5 ∧
      Nat.testBit ((initialise exB 171).pdata.getD (exB.SIZE - 1) 0) 5 = false :=
  ⟨by decide, (initialise_establishes_invariant exB (by decide) 171).1, by decide,
    (initialise_establishes_invariant exB (by decide) 171).2 5 (by decide)⟩

/-- C9: for every well-formed bitset and position below `bit_count`,
`set(position)` makes `test(position)` true and `reset(position)` makes
it false. -/
theorem set_reset_test (s : Ibitset) (hwf : WF s) (p : Nat) (hp : p < s.NBITS) :
    test (set s p true) p = true ∧ test (reset s p) p = false :=
  ⟨test_set_self hwf hp true, by rw [reset_eq_set_false]; exact test_set_self hwf hp false⟩

/-- Witness for `set_reset_test` on the 4-bit bitset `exB` at position 2. -/
theorem set_reset_test_witness :
    WF exB ∧ 2 < exB.NBITS ∧
      (test (set exB 2 true) 2 = true ∧ test (reset exB 2) 2 = false) :=
  ⟨by decide, by decide, set_reset_test exB (by decide) 2 (by decide)⟩

theorem flip_pdata_of_lt {s : Ibitset} {p : Nat} (hp : p < s.NBITS) :
    flip s p =
      { s with pdata := updateElem s.pdata (bitIndex s p) (fun e => e ^^^ bitMask s p) } := by
  unfold flip
  rw [if_pos hp]

theorem flip_flip_pdata {s : Ibitset} (hwf : WF s) {p : Nat} (hp : p < s.NBITS) :
    (flip (flip s p) p).pdata = s.pdata := by
  have hidx : bitIndex s p < s.pdata.length := by
    rw [bitIndex_eq hwf hp, hwf.2.1]
    have := hwf.nbits_le
    omega
  have h1 : flip s p =
      { s with pdata := updateElem s.pdata (bitIndex s p) (fun e => e ^^^ bitMask s p) } :=
    flip_pdata_of_lt hp
  have h2 : flip (flip s p) p =
      { (flip s p) with pdata :=
          (updateElem (flip s p).pdata (bitIndex (flip s p) p)
            (fun e => e ^^^ bitMask (flip s p) p)) } :=
    flip_pdata_of_lt (by rw [flip_NBITS]; exact hp)
  rw [h2, h1]
  show updateElem (updateElem s.pdata (bitIndex s p) (fun e => e ^^^ bitMask s p))
    (bitIndex s p) (fun e => e ^^^ bitMask s p) = s.pdata
  unfold updateElem
  rw [getD_set_self _ _ _ hidx, List.set_set]
  show s.pdata.set (bitIndex s p)
    ((s.pdata.getD (bitIndex s p) 0 ^^^ bitMask s p) ^^^ bitMask s p) = s.pdata
  rw [Nat.xor_assoc, Nat.xor_self, Nat.xor_zero, set_getD_self _ _ hidx]

theorem double_complement_mask {e t : Nat} (hinv : e &&& t = e) :
    (((e ^^^ 255) &&& t) ^^^ 255) &&& t = e := by
  apply Nat.eq_of_testBit_eq
  intro j
  have hb : (e.testBit j && t.testBit j) = e.testBit j := by
    have hc := congrArg (fun x => Nat.testBit x j) hinv
    simp only [Nat.testBit_and] at hc
    exact hc
  simp only [Nat.testBit_and, Nat.testBit_xor]
  revert hb
  cases e.testBit j <;> cases (255 : Nat).testBit j <;> cases t.testBit j <;> decide

theorem flipAll_flipAll_pdata {s : Ibitset} (hwf : WF s) (hinv : Invariant s) :
    (flipAllBits (flipAllBits s)).pdata = s.pdata := by
  have hplen : s.pdata.length = s.SIZE := hwf.2.1
  have hS : 0 < s.SIZE := hwf.size_pos
  show updateElem
      ((updateElem (s.pdata.map (fun e => e ^^^ 255)) (s.SIZE - 1)
        (fun e => e &&& TOP_MASK s)).map (fun e => e ^^^ 255))
      (s.SIZE - 1) (fun e => e &&& TOP_MASK s) = s.pdata
  unfold updateElem
  apply list_ext_getD
  · simp
  · intro i hi
    simp only [List.length_set, List.length_map] at hi
    by_cases hiL : i = s.SIZE - 1
    · subst hiL
      rw [getD_set_self _ _ _ (by simp; omega),
        getD_map_of_lt _ _ _ (by simp [List.length_set]; omega),
        getD_set_self _ _ _ (by simp; omega),
        getD_map_of_lt _ _ _ (by omega)]
      exact double_complement_mask hinv
    · rw [getD_set_ne _ _ _ _ (fun h => hiL h.symm),
        getD_map_of_lt _ _ _ (by simp [List.length_set]; omega),
        getD_set_ne _ _ _ _ (fun h => hiL h.symm),
        getD_map_of_lt _ _ _ (by omega),
        Nat.xor_assoc, Nat.xor_self, Nat.xor_zero]

/-- C7: double flip is the identity on the storage contents, for the
whole-array `flip()` (which complements every element, then re-masks the
last) and for every in-range single-position `flip(position)`. -/
theorem flip_flip_identity (s : Ibitset) (hwf : WF s) (hinv : Invariant s) :
    (flipAllBits (flipAllBits s)).pdata = s.pdata ∧
      ∀ p, p < s.NBITS → (flip (flip s p) p).pdata = s.pdata :=
  ⟨flipAll_flipAll_pdata hwf hinv, fun _ hp => flip_flip_pdata hwf hp⟩

/-- Witness for `flip_flip_identity` on the 16-bit bitset `exA`, with
single-position flips at position 3. -/
theorem flip_flip_identity_witness :
    WF exA ∧ Invariant exA ∧ (flipAllBits (flipAllBits exA)).pdata = exA.pdata ∧
      3 < exA.NBITS ∧ (flip (flip exA 3) 3).pdata = exA.pdata :=
  ⟨by decide, by decide, (flip_flip_identity exA (by decide) (by decide)).1, by decide,
    (flip_flip_identity exA (by decide) (by decide)).2 3 (by decide)⟩

theorem tail_getD (l : List Char) (k : Nat) (d : Char) : l.tail.getD k d = l.getD (k + 1) d := by
  cases l <;> rfl

theorem headD_getD (l : List Char) (d : Char) : l.headD d = l.getD 0 d := by
  cases l <;> rfl

@[simp] theorem resetAll_NBITS (s : Ibitset) : (resetAllBits s).NBITS = s.NBITS := rfl

@[simp] theorem resetAll_SIZE (s : Ibitset) : (resetAllBits s).SIZE = s.SIZE := rfl

theorem WF_resetAll {s : Ibitset} (hwf : WF s) : WF (resetAllBits s) := by
  obtain ⟨h1, h2, h3, _⟩ := hwf
  refine ⟨h1, ?_, h3, ?_⟩
  · show (s.pdata.map (fun _ => ALL_CLEAR)).length = s.SIZE
    rw [List.length_map, h2]
  · intro e he
    rcases List.mem_map.mp he with ⟨_, _, hx⟩
    rw [← hx]
    decide

theorem resetAll_getD (s : Ibitset) (i : Nat) : (resetAllBits s).pdata.getD i 0 = 0 := by
  by_cases hi : i < s.pdata.length
  · exact getD_map_of_lt _ _ _ hi
  · show (s.pdata.map (fun _ => ALL_CLEAR)).getD i 0 = 0
    rw [List.getD_eq_getElem?_getD, List.getElem?_eq_none (by rw [List.length_map]; omega)]
    rfl

theorem test_resetAll {s : Ibitset} (hwf : WF s) {q : Nat} (hq : q < s.NBITS) :
    test (resetAllBits s) q = false := by
  rw [test_char (WF_resetAll hwf) hq, resetAll_getD, Nat.zero_testBit]

theorem setTextLoop_test : ∀ (i : Nat) (s : Ibitset) (text : List Char), WF s →
    i ≤ s.NBITS → i ≤ text.length → ∀ q, q < s.NBITS →
      test (setTextLoop s i text) q =
        if q < i then (text.getD (i - 1 - q) 'x' == '1') else test s q := by
  intro i
  induction i with
  | zero =>
    intro s text hwf hi hl q hq
    simp [setTextLoop]
  | succ n ih =>
    intro s text hwf hi hl q hq
    show test (setTextLoop (set s n (text.headD 'x' == '1')) n text.tail) q = _
    rw [ih (set s n (text.headD 'x' == '1')) text.tail (WF_set hwf n _)
      (by rw [set_NBITS]; omega) (by rw [List.length_tail]; omega) q hq]
    by_cases h1 : q < n
    · rw [if_pos h1, if_pos (by omega), tail_getD,
        show n - 1 - q + 1 = n + 1 - 1 - q by omega]
    · by_cases h2 : q = n
      · subst h2
        rw [if_neg (lt_irrefl _), if_pos (by omega), test_set_self hwf hq,
          show q + 1 - 1 - q = 0 by omega, headD_getD]
      · rw [if_neg h1, if_neg (by omega),
          test_set_other hwf (by omega) hq (by omega) (text.headD 'x' == '1')]

/-- C3 amended: `set(text)` clears the whole array and then consumes
exactly `n = min(bit_count, length(text))` characters from the left end
(the beginning) of the string: the consumed character at string index `k`
maps to bit `n - 1 - k` (so the last consumed character maps to bit 0),
any character other than '1' leaves its bit clear, and all bits at or
beyond `n` stay clear.  When `length(text) <= bit_count` this coincides
with reading the whole string with its rightmost character at bit 0; when
`length(text) > bit_count` it is the trailing characters, not the leading
ones, that are ignored. -/
theorem setText_chars (s : Ibitset) (hwf : WF s) (text : List Char) (q : Nat)
    (hq : q < s.NBITS) :
    test (setText s text) q =
      if q < min s.NBITS text.length
      then (text.getD (min s.NBITS text.length - 1 - q) 'x' == '1')
      else false := by
  unfold setText
  rw [setTextLoop_test (min s.NBITS text.length) (resetAllBits s) text (WF_resetAll hwf)
    (Nat.min_le_left _ _) (Nat.min_le_right _ _) q hq]
  by_cases hqm : q < min s.NBITS text.length
  · rw [if_pos hqm, if_pos hqm]
  · rw [if_neg hqm, if_neg hqm, test_resetAll hwf hq]

/-- Witness for `setText_chars`: the 4-bit bitset `exB` with the 6-char
string "110101"; the consumed characters are the leading "1101" and bit 0
receives the fourth character '1'. -/
theorem setText_chars_witness :
    WF exB ∧ 0 < exB.NBITS ∧
      test (setText exB (['1', '1', '0', '1', '0', '1'])) 0 =
        (if 0 < min exB.NBITS (['1', '1', '0', '1', '0', '1'] : List Char).length
         then ((['1', '1', '0', '1', '0', '1'] : List Char).getD
           (min exB.NBITS (['1', '1', '0', '1', '0', '1'] : List Char).length - 1 - 0) 'x' == '1')
         else false) :=
  ⟨by decide, by decide,
    setText_chars exB (by decide) (['1', '1', '0', '1', '0', '1']) 0 (by decide)⟩

@[simp] theorem shlResetLoop_NBITS : ∀ (n : Nat) (s : Ibitset) (d : Nat),
    (shlResetLoop s n d).NBITS = s.NBITS := by
  intro n
  induction n with
  | zero => intro s d; rfl
  | succ m ih =>
    intro s d
    show (shlResetLoop (reset s d) m (d - 1)).NBITS = s.NBITS
    rw [ih]
    rfl

@[simp] theorem shlResetLoop_SIZE : ∀ (n : Nat) (s : Ibitset) (d : Nat),
    (shlResetLoop s n d).SIZE = s.SIZE := by
  intro n
  induction n with
  | zero => intro s d; rfl
  | succ m ih =>
    intro s d
    show (shlResetLoop (reset s d) m (d - 1)).SIZE = s.SIZE
    rw [ih]
    rfl

theorem WF_shlResetLoop : ∀ (n : Nat) (s : Ibitset) (d : Nat), WF s →
    WF (shlResetLoop s n d) := by
  intro n
  induction n with
  | zero => intro s d hwf; exact hwf
  | succ m ih =>
    intro s d hwf
    exact ih (reset s d) (d - 1) (WF_reset hwf d)

theorem Invariant_shlResetLoop : ∀ (n : Nat) (s : Ibitset) (d : Nat), WF s → Invariant s →
    d < s.NBITS → Invariant (shlResetLoop s n d) := by
  intro n
  induction n with
  | zero => intro s d _ hinv _; exact hinv
  | succ m ih =>
    intro s d hwf hinv hd
    exact ih (reset s d) (d - 1) (WF_reset hwf d) (Invariant_reset hwf hinv hd)
      (by rw [reset_NBITS]; omega)

theorem shlResetLoop_test : ∀ (n : Nat) (s : Ibitset) (d : Nat), WF s → d < s.NBITS →
    n ≤ d + 1 → ∀ q, q < s.NBITS →
      test (shlResetLoop s n d) q = if d + 1 - n ≤ q ∧ q ≤ d then false else test s q := by
  intro n
  induction n with
  | zero =>
    intro s d hwf hd hn q hq
    rw [if_neg (by omega)]
    rfl
  | succ m ih =>
    intro s d hwf hd hn q hq
    show test (shlResetLoop (reset s d) m (d - 1)) q = _
    rw [ih (reset s d) (d - 1) (WF_reset hwf d) (by rw [reset_NBITS]; omega) (by omega) q hq]
    by_cases hq1 : q = d
    · subst hq1
      rw [if_neg (by omega), if_pos (by omega), reset_eq_set_false, test_set_self hwf hq]
    · have hts : test (reset s d) q = test s q := by
        rw [reset_eq_set_false]
        exact test_set_other hwf hd hq hq1 false
      by_cases hc : d + 1 - (m + 1) ≤ q ∧ q ≤ d
      · rw [if_pos (by omega), if_pos hc]
      · rw [if_neg (by omega), if_neg hc, hts]

theorem noneBits_of_all_clear {s : Ibitset} (hwf : WF s) (hinv : Invariant s)
    (h : ∀ q, q < s.NBITS → test s q = false) : noneBits s = true := by
  have hgt := hwf.nbits_gt
  have hle := hwf.nbits_le
  unfold noneBits
  rw [List.all_eq_true]
  intro i hi
  rw [List.mem_range] at hi
  show (s.pdata.getD i 0 == 0) = true
  rw [beq_iff_eq]
  apply Nat.eq_of_testBit_eq
  intro j
  rw [Nat.zero_testBit]
  by_cases hj8 : j < 8
  · by_cases hp : 8 * i + j < s.NBITS
    · have ht := h (8 * i + j) hp
      rw [test_char hwf hp, show (8 * i + j) / 8 = i by omega,
        show (8 * i + j) % 8 = j by omega] at ht
      exact ht
    · have hi_eq : i = s.SIZE - 1 := by omega
      rw [hi_eq]
      rw [Invariant_iff_lt hwf] at hinv
      apply Nat.testBit_lt_two_pow
      calc s.pdata.getD (s.SIZE - 1) 0 < 2 ^ (s.NBITS - 8 * (s.SIZE - 1)) := hinv
        _ ≤ 2 ^ j := Nat.pow_le_pow_right (by omega) (by omega)
  · apply Nat.testBit_lt_two_pow
    calc s.pdata.getD i 0 < 256 := getD_lt_256 hwf i
      _ = 2 ^ 8 := rfl
      _ ≤ 2 ^ j := Nat.pow_le_pow_right (by omega) (by omega)

/-- C4 amended: after `operator<<=` with a shift of at least `bit_count`,
every storage element is zero (`none()` is true) in the cases where the
source is defined and correct: the single-element path whenever the shift
reaches a full element width (`shift >= 8`, any `bit_count`), and the
multi-element path with `shift == bit_count` (larger shifts make the
`NBITS - shift` loop bound underflow and read out of storage).  The
single-element path with `bit_count <= shift < 8` instead leaves
shifted-out bits in storage (see the counterexample). -/
theorem shl_ge_width_none (s : Ibitset) (hwf : WF s) (hinv : Invariant s) (shift : Nat)
    (hge : s.NBITS ≤ shift)
    (hcase : (s.SIZE = 1 ∧ 8 ≤ shift) ∨ (2 ≤ s.SIZE ∧ shift = s.NBITS)) :
    noneBits (shlAssign s shift) = true := by
  rcases hcase with ⟨hsz, h8s⟩ | ⟨hsz, hsh⟩
  · have hlen : s.pdata.length = 1 := by rw [hwf.2.1, hsz]
    have he : s.pdata.getD 0 0 < 256 := getD_lt_256 hwf 0
    have hz : (s.pdata.getD 0 0 <<< shift) % 256 = 0 := by
      have h2 : (2 : Nat) ^ shift = 2 ^ (shift - 8) * 256 := by
        rw [show (256 : Nat) = 2 ^ 8 from rfl, ← pow_add]
        congr 1
        omega
      rw [Nat.shiftLeft_eq, h2, ← Nat.mul_assoc, Nat.mul_mod_left]
    unfold shlAssign
    rw [if_pos hsz]
    show ((List.range s.SIZE).all
      (fun i => (updateElem s.pdata 0 (fun e => (e <<< shift) % 256)).getD i 0 == 0)) = true
    rw [hsz, show List.range 1 = [0] from rfl, List.all_cons, List.all_nil, Bool.and_true]
    unfold updateElem
    rw [getD_set_self _ _ _ (by omega)]
    show ((s.pdata.getD 0 0 <<< shift) % 256 == 0) = true
    rw [hz]
    rfl
  · subst hsh
    have hred : shlAssign s s.NBITS = shlResetLoop s s.NBITS (s.NBITS - 1) := by
      unfold shlAssign
      rw [if_neg (by omega), Nat.sub_self, Nat.zero_sub]
      rfl
    rw [hred]
    have hpos := hwf.1
    apply noneBits_of_all_clear (WF_shlResetLoop _ _ _ hwf)
      (Invariant_shlResetLoop _ _ _ hwf hinv (by omega))
    intro q hq
    rw [shlResetLoop_NBITS] at hq
    rw [shlResetLoop_test _ _ _ hwf (by omega) (by omega) q hq, if_pos (by omega)]

/-- Witness for `shl_ge_width_none` on the two-element 16-bit bitset
`exA`, shifted left by its full width. -/
theorem shl_ge_width_none_witness :
    WF exA ∧ Invariant exA ∧ exA.NBITS ≤ 16 ∧ (2 ≤ exA.SIZE ∧ 16 = exA.NBITS) ∧
      noneBits (shlAssign exA 16) = true :=
  ⟨by decide, by decide, by decide, by decide,
    shl_ge_width_none exA (by decide) (by decide) 16 (by decide) (Or.inr (by decide))⟩

theorem countBitsFuel_congr : ∀ (f1 f2 n : Nat), n ≤ f1 → n ≤ f2 →
    countBitsFuel f1 n = countBitsFuel f2 n := by
  intro f1
  induction f1 with
  | zero =>
    intro f2 n h1 h2
    have hn : n = 0 := by omega
    subst hn
    cases f2 <;> simp [countBitsFuel]
  | succ m ih =>
    intro f2 n h1 h2
    cases f2 with
    | zero =>
      have hn : n = 0 := by omega
      subst hn
      simp [countBitsFuel]
    | succ k =>
      show (if n = 0 then 0 else n % 2 + countBitsFuel m (n / 2)) =
        (if n = 0 then 0 else n % 2 + countBitsFuel k (n / 2))
      by_cases hn : n = 0
      · rw [if_pos hn, if_pos hn]
      · rw [if_neg hn, if_neg hn, ih k (n / 2) (by omega) (by omega)]

theorem count_bits_rec (n : Nat) (h : n ≠ 0) : count_bits n = n % 2 + count_bits (n / 2) := by
  show countBitsFuel n n = _
  cases n with
  | zero => exact absurd rfl h
  | succ m =>
    show (if m + 1 = 0 then 0 else (m + 1) % 2 + countBitsFuel m ((m + 1) / 2)) = _
    rw [if_neg h]
    congr 1
    exact countBitsFuel_congr m ((m + 1) / 2) ((m + 1) / 2) (by omega) (le_refl _)

theorem count_bits_sum : ∀ (k e : Nat), e < 2 ^ k →
    count_bits e = ∑ j ∈ Finset.range k, (e.testBit j).toNat := by
  intro k
  induction k with
  | zero =>
    intro e he
    rw [pow_zero] at he
    have : e = 0 := by omega
    subst this
    rfl
  | succ m ih =>
    intro e he
    by_cases h0 : e = 0
    · subst h0
      simp [Nat.zero_testBit]
      rfl
    · rw [count_bits_rec e h0, Finset.sum_range_succ',
        ih (e / 2) (by rw [pow_succ] at he; omega)]
      simp only [Nat.testBit_add_one]
      have h2 : (e.testBit 0).toNat = e % 2 := by
        rw [Nat.testBit_zero]
        rcases Nat.mod_two_eq_zero_or_one e with h | h <;> simp [h]
      rw [h2]
      exact Nat.add_comm _ _

theorem foldl_add_range : ∀ (n : Nat) (f : Nat → Nat),
    (List.range n).foldl (fun a i => a + f i) 0 = ∑ i ∈ Finset.range n, f i := by
  intro n
  induction n with
  | zero => intro f; rfl
  | succ m ih =>
    intro f
    rw [List.range_succ, List.foldl_append, ih, Finset.sum_range_succ]
    rfl

theorem sum_range_mul8 : ∀ (m : Nat) (g : Nat → Nat),
    ∑ p ∈ Finset.range (8 * m), g p =
      ∑ i ∈ Finset.range m, ∑ j ∈ Finset.range 8, g (8 * i + j) := by
  intro m
  induction m with
  | zero => intro g; rfl
  | succ k ih =>
    intro g
    have h8 : 8 * (k + 1) = 8 * k + 8 := by ring
    rw [h8, Finset.sum_range_add, ih]
    exact (Finset.sum_range_succ (fun i => ∑ j ∈ Finset.range 8, g (8 * i + j)) k).symm

/-- C6: for every well-formed bitset satisfying the invariant, `count()`
(the sum of the per-element population counts) equals the number of
positions `p` in `[0, bit_count)` with `test(p) == true`. -/
theorem count_eq_card_test (s : Ibitset) (hwf : WF s) (hinv : Invariant s) :
    count s = ((Finset.range s.NBITS).filter (fun p => test s p = true)).card := by
  have hgt := hwf.nbits_gt
  have hle := hwf.nbits_le
  calc count s
      = ∑ i ∈ Finset.range s.SIZE, count_bits (s.pdata.getD i 0) := foldl_add_range _ _
    _ = ∑ i ∈ Finset.range s.SIZE, ∑ j ∈ Finset.range 8,
          ((s.pdata.getD i 0).testBit j).toNat := by
        apply Finset.sum_congr rfl
        intro i _
        exact count_bits_sum 8 _ (getD_lt_256 hwf i)
    _ = ∑ i ∈ Finset.range s.SIZE, ∑ j ∈ Finset.range 8,
          ((s.pdata.getD ((8 * i + j) / 8) 0).testBit ((8 * i + j) % 8)).toNat := by
        apply Finset.sum_congr rfl
        intro i _
        apply Finset.sum_congr rfl
        intro j hj
        rw [Finset.mem_range] at hj
        rw [show (8 * i + j) / 8 = i by omega, show (8 * i + j) % 8 = j by omega]
    _ = ∑ p ∈ Finset.range (8 * s.SIZE),
          ((s.pdata.getD (p / 8) 0).testBit (p % 8)).toNat :=
        (sum_range_mul8 s.SIZE
          (fun p => ((s.pdata.getD (p / 8) 0).testBit (p % 8)).toNat)).symm
    _ = ∑ p ∈ Finset.range s.NBITS,
          ((s.pdata.getD (p / 8) 0).testBit (p % 8)).toNat := by
        refine (Finset.sum_subset (Finset.range_subset.mpr hle) ?_).symm
        intro p hp8 hpn
        rw [Finset.mem_range] at hp8
        rw [Finset.mem_range] at hpn
        have hj8 : p % 8 < 8 := Nat.mod_lt _ (by omega)
        have hip : p / 8 = s.SIZE - 1 := by omega
        have hlt := (Invariant_iff_lt hwf).mp hinv
        have hz : (s.pdata.getD (s.SIZE - 1) 0).testBit (p % 8) = false := by
          apply Nat.testBit_lt_two_pow
          calc s.pdata.getD (s.SIZE - 1) 0 < 2 ^ (s.NBITS - 8 * (s.SIZE - 1)) := hlt
            _ ≤ 2 ^ (p % 8) := Nat.pow_le_pow_right (by omega) (by omega)
        rw [hip, hz]
        rfl
    _ = ∑ p ∈ Finset.range s.NBITS, (if test s p = true then 1 else 0) := by
        apply Finset.sum_congr rfl
        intro p hp
        rw [Finset.mem_range] at hp
        rw [test_char hwf hp]
        cases h : (s.pdata.getD (p / 8) 0).testBit (p % 8) <;> simp [h]
    _ = ((Finset.range s.NBITS).filter (fun p => test s p = true)).card :=
        (Finset.card_filter _ _).symm

/-- Witness for `count_eq_card_test` on the 16-bit bitset `exA`, whose
single set bit sits at position 8. -/
theorem count_eq_card_test_witness :
    WF exA ∧ Invariant exA ∧
      count exA = ((Finset.range exA.NBITS).filter (fun p => test exA p = true)).card :=
  ⟨by decide, by decide, count_eq_card_test exA (by decide) (by decide)⟩

/-- C8: for every bitset and every position at or beyond `bit_count`,
`flip(position)` is a silent no-op: it returns with the entire state,
storage included, unchanged. -/
theorem flip_out_of_range_noop (s : Ibitset) (position : Nat)
    (h : s.NBITS ≤ position) : flip s position = s := by
  unfold flip
  rw [if_neg (by omega)]

/-- Witness for `flip_out_of_range_noop` at the 4-bit bitset `exB` and
position 9. -/
theorem flip_out_of_range_noop_witness : exB.NBITS ≤ 9 ∧ flip exB 9 = exB :=
  ⟨by decide, flip_out_of_range_noop exB 9 (by decide)⟩

/-- C1: concrete run of the whole-element skip in `find_next`.  `exA`
satisfies the construction contract and the invariant, its only set bit
is at absolute position 8, yet `find_next(true, 3)` returns 11: skipping
the all-clear element containing start position 3 advances the cursor by
a full `BITS_PER_ELEMENT` although only 5 positions of that element
remained, so the position reported for the match in the next element is
off by 3 — and indeed `test` is false at the returned position. -/
theorem find_next_skip_overshoot :
    WF exA ∧ Invariant exA ∧ test exA 8 = true ∧ find_next exA true 3 = 11 ∧
      test exA 11 = false := by decide

/-- C2: concrete run of the single-element path of `operator<<=`.  `exB`
(4 valid bits in one element, storage `0b00001000`) satisfies the
construction contract and the invariant; `<<= 1` produces storage
`0b00010000`, whose set bit sits at position 4 ≥ `bit_count`, so the
documented invariant no longer holds: the single-element path never
re-applies `TOP_MASK`. -/
theorem shl_single_element_breaks_invariant :
    WF exB ∧ Invariant exB ∧ (shlAssign exB 1).pdata = [16] ∧
      Nat.testBit 16 4 = true ∧ ¬ Invariant (shlAssign exB 1) := by decide

/-- C3 counterexample: on the 2-bit bitset `exC`, `set("101")` consumes
the first two characters "10" of the string, not the last two "01" as
the claim's right-end reading predicts; the code yields bit 1 set and
bit 0 clear (storage `0b10`), while the claim predicts bit 0 set (from
the rightmost character '1') and bit 1 clear. -/
theorem setText_right_end_false :
    test (setText exC (['1', '0', '1'])) 0 = false ∧
      test (setText exC (['1', '0', '1'])) 1 = true ∧
      (setText exC (['1', '0', '1'])).pdata = [2] := by decide

/-- C4 counterexample: shifting the 4-bit single-element bitset `exB`
(storage `0b00001000`, invariant satisfied) left by its full width 4
leaves storage `0b10000000`: the set bit moved past `bit_count` instead
of vanishing, so `none()` is false although the shift amount reached
`bit_count`. -/
theorem shl_large_shift_not_none :
    WF exB ∧ Invariant exB ∧ exB.NBITS ≤ 4 ∧
      (shlAssign exB 4).pdata = [128] ∧ noneBits (shlAssign exB 4) = false := by decide

end Etl
